import Mathlib

/-
Verification of the templated-HTTP-request + text-substitution pipeline of the
TopSongs CLI: the request-spec parser and substitution engine
(src/http_template.rs), the pattern normalizer (src/text.rs), the HTTP
executor's error classification (src/net.rs) and the Discord bio patch step
(src/main.rs).  Strings are modelled as lists of characters (`Str`); the
`HashMap` of the variable resolver is modelled as an association list with
insert-overwrite semantics; the regex library calls are modelled by their
documented behaviour on the inputs the program uses (the placeholder scan of
`replace_all`, and the `$`-expansion of `Regex::replace` with a `&str`
replacement).
-/

namespace TopSongs

/-- Strings modelled as lists of characters. -/
abbrev Str := List Char

/-- The character class `[A-Za-z0-9_]` of the placeholder regex in
`substitute_vars` (src/http_template.rs:79). -/
def isWordChar (c : Char) : Bool := c.isAlphanum || c == '_'

/-- One anchored attempt of the regex `\{\{([A-Za-z0-9_]+)\}\}` at the head of
the input: on success returns the captured identifier and the remainder after
the closing braces.  The `+` is greedy and `}` is not a word character, so the
maximal word-character run followed by a `}}` check is exactly the regex's
behaviour. -/
def matchPlaceholder : Str → Option (Str × Str)
  | c₁ :: c₂ :: rest =>
    if c₁ = '{' ∧ c₂ = '{' then
      let name := rest.takeWhile isWordChar
      match rest.dropWhile isWordChar with
      | d₁ :: d₂ :: rest2 =>
        if d₁ = '}' ∧ d₂ = '}' ∧ name ≠ [] then some (name, rest2) else none
      | _ => none
    else none
  | _ => none

/-- A variable map: model of the `HashMap<String, String>` used by the
variable resolver, as an association list whose keys are unique. -/
abbrev VarsMap := List (Str × Str)

/-- Model of `HashMap::get` (the first binding of the key, unique by
construction). -/
def hmLookup (m : VarsMap) (k : Str) : Option Str :=
  (m.find? (fun kv => kv.1 == k)).map (fun kv => kv.2)

/-- Model of `HashMap::insert`: the new binding replaces any previous binding
of the same key (HashMap order is irrelevant, so the new binding is put in
front and stale bindings are dropped). -/
def hmInsert (m : VarsMap) (k v : Str) : VarsMap :=
  (k, v) :: m.filter (fun kv => !(kv.1 == k))

/-- The left-to-right scan of `re.replace_all` in `substitute_vars`
(src/http_template.rs:77-84): at each position, if the placeholder regex
matches, the token is replaced by the variable's value when the name is bound
and kept verbatim otherwise, and scanning resumes after the token (the
replacement value is never re-scanned); otherwise the character is copied.
The fuel argument (instantiated with the input length, an upper bound on the
number of scan steps) only makes the recursion structural. -/
def substFuel (vars : VarsMap) : Nat → Str → Str
  | 0, s => s
  | _ + 1, [] => []
  | fuel + 1, c :: cs =>
    match matchPlaceholder (c :: cs) with
    | some (name, rest) =>
      ((hmLookup vars name).getD ('{' :: '{' :: (name ++ '}' :: '}' :: []))) ++
        substFuel vars fuel rest
    | none => c :: substFuel vars fuel cs

/-- Model of `substitute_vars` (src/http_template.rs:77-84). -/
def substitute_vars (input : Str) (vars : VarsMap) : Str :=
  substFuel vars input.length input

/-- Whether some position of the text starts a `\{\{([A-Za-z0-9_]+)\}\}`
placeholder token ("contains a placeholder sequence"). -/
def hasPlaceholder : Str → Bool
  | [] => false
  | c :: cs => (matchPlaceholder (c :: cs)).isSome || hasPlaceholder cs

/-- The placeholder identifiers found by the scan of `replace_all`, in scan
order (same traversal as `substFuel`). -/
def scanNamesFuel : Nat → Str → List Str
  | 0, _ => []
  | _ + 1, [] => []
  | fuel + 1, c :: cs =>
    match matchPlaceholder (c :: cs) with
    | some (name, rest) => name :: scanNamesFuel fuel rest
    | none => scanNamesFuel fuel cs

/-- The placeholder identifiers of a text, in scan order. -/
def scanNames (s : Str) : List Str := scanNamesFuel s.length s

/-- Model of `build_vars_map` (src/http_template.rs:65-75): the explicit base
pairs are inserted in order with `HashMap::insert`, then every environment
variable is added with `entry(k).or_insert(v)`, i.e. only when its name is not
yet a key.  The process environment is passed explicitly as a list of pairs. -/
def build_vars_map (base : VarsMap) (env : VarsMap) : VarsMap :=
  let m := base.foldl (fun m kv => hmInsert m kv.1 kv.2) []
  env.foldl (fun m kv => if (hmLookup m kv.1).isSome then m else hmInsert m kv.1 kv.2) m

/-- Model of Rust `str::trim` (src/http_template.rs:52-53, src/text.rs:5):
whitespace is stripped from both ends. -/
def rustTrim (s : Str) : Str :=
  ((s.dropWhile Char.isWhitespace).reverse.dropWhile Char.isWhitespace).reverse

/-- Model of one header-line parse of `parse_http_spec`
(src/http_template.rs:50-56): the line is split at the first `:`; the name is
the text before it, trimmed; the value is the text from the colon on with all
leading colons removed by `trim_start_matches(':')` and then trimmed; a line
with no colon is the error `Invalid header line: <raw>`. -/
def parseHeaderLine (raw : Str) : Except Str (Str × Str) :=
  match raw.findIdx? (fun c => c == ':') with
  | some idx =>
    Except.ok (rustTrim (raw.take idx),
      rustTrim ((raw.drop idx).dropWhile (fun c => c == ':')))
  | none => Except.error ("Invalid header line: ".toList ++ raw)

/-- Decidable equality of parse results, so that concrete parses can be
checked by evaluation. -/
instance {ε α : Type} [DecidableEq ε] [DecidableEq α] : DecidableEq (Except ε α) :=
  fun a b =>
    match a, b with
    | Except.ok x, Except.ok y =>
      if h : x = y then isTrue (by rw [h]) else isFalse (fun hh => h (Except.ok.inj hh))
    | Except.error x, Except.error y =>
      if h : x = y then isTrue (by rw [h]) else isFalse (fun hh => h (Except.error.inj hh))
    | Except.ok _, Except.error _ => isFalse (fun hh => Except.noConfusion hh)
    | Except.error _, Except.ok _ => isFalse (fun hh => Except.noConfusion hh)

/-- Model of `normalize_pattern` (src/text.rs:4-11): the input is trimmed;
then, if the trimmed string has length at least two and both starts and ends
with `/`, its first and last characters are removed; otherwise the trimmed
string is returned. -/
def normalize_pattern (p : Str) : Str :=
  let s := rustTrim p
  if 2 ≤ s.length ∧ s.head? = some '/' ∧ s.getLast? = some '/' then
    (s.drop 1).dropLast
  else s

/-- Model of `HttpSpec` (src/http_template.rs:6-11). -/
structure HttpSpec where
  method : Str
  url : Str
  headers : List (Str × Str)
  body : Option Str

/-- Model of `apply_substitution` (src/http_template.rs:86-94): substitution
is applied to the URL, to each header name and value, and to the body when
present; the method is passed through. -/
def apply_substitution (spec : HttpSpec) (vars : VarsMap) : HttpSpec :=
  { method := spec.method
    url := substitute_vars spec.url vars
    headers := spec.headers.map (fun kv => (substitute_vars kv.1 vars, substitute_vars kv.2 vars))
    body := spec.body.map (fun b => substitute_vars b vars) }

/-- Decimal digits of a natural number, modelling the `Display` of a numeric
status code. -/
def natToStr (n : Nat) : Str := (toString n).toList

/-- Model of a received HTTP response as far as `send_with_debug`
(src/net.rs:33-86) inspects it: the numeric status code, the canonical reason
phrase (the `Display` of a `StatusCode` is the code followed by the reason),
and the result of reading the body text. -/
structure ResponseModel where
  status : Nat
  reason : Str
  bodyRead : Except Str Str
deriving DecidableEq

/-- Model of `StatusCode::is_success`: the 2xx range. -/
def statusIsSuccess (s : Nat) : Bool := 200 ≤ s && s ≤ 299

/-- The `Display` of a status: numeric code, space, canonical reason. -/
def statusDisplay (r : ResponseModel) : Str := natToStr r.status ++ ' ' :: r.reason

/-- Model of `resp.text().await.unwrap_or_else(...)` (src/net.rs:76-79): the
body text when reading succeeds, otherwise the placeholder
`<failed to read error body: e>`. -/
def readBodyOrPlaceholder : Except Str Str → Str
  | Except.ok b => b
  | Except.error e => "<failed to read error body: ".toList ++ e ++ ['>']

/-- Model of the response-classification half of `send_with_debug`
(src/net.rs:70-85), given an already received response: the returned result
and the emitted debug lines.  A successful status returns the response; a
non-success status reads the body (best effort), logs status and body when
`debug` is set, and returns the error `HTTP request failed with status
<status>` — the body appears only in the debug log, not in the error. -/
def send_with_debug (r : ResponseModel) (debug : Bool) : Except Str ResponseModel × List Str :=
  let log₀ : List Str := if debug then ["← Response: ".toList ++ statusDisplay r] else []
  if statusIsSuccess r.status then (Except.ok r, log₀)
  else
    let body := readBodyOrPlaceholder r.bodyRead
    let log₁ := if debug then
        log₀ ++ ["HTTP error status: ".toList ++ statusDisplay r ++
          '\n' :: "Response body: ".toList ++ body]
      else log₀
    (Except.error ("HTTP request failed with status ".toList ++ statusDisplay r), log₁)

/-- Digit run to a natural number (the numeric capture-group reference of a
`$` expansion). -/
def digitsToNat (s : Str) : Nat :=
  s.foldl (fun n c => n * 10 + (c.toNat - '0'.toNat)) 0

/-- Resolution of one capture-group reference of a replacement string: an
all-digit name refers to a group by index, any other name to a named group;
a reference to a group that does not exist expands to the empty string (the
lookup functions are total and return the group's text or `[]`). -/
def resolveCap (capNum : Nat → Str) (capName : Str → Str) (name : Str) : Str :=
  if name.all Char.isDigit then capNum (digitsToNat name) else capName name

/-- The `$` expansion the regex crate applies to a `&str` replacement in
`Regex::replace` (used at src/main.rs:474): `$$` is a literal `$`; `${name}`
with a non-empty brace-delimited name is a capture reference; `$name` with a
non-empty run of `[A-Za-z0-9_]` characters is a capture reference (digits-only
names are indices, anything else a group name); any other `$` is literal.
The fuel (instantiated with the input length, an upper bound on the number of
steps) only makes the recursion structural. -/
def expandFuel (capNum : Nat → Str) (capName : Str → Str) : Nat → Str → Str
  | 0, s => s
  | _ + 1, [] => []
  | fuel + 1, c :: rest =>
    if c = '$' then
      match rest with
      | [] => '$' :: expandFuel capNum capName fuel []
      | d :: rest2 =>
        if d = '$' then '$' :: expandFuel capNum capName fuel rest2
        else if d = '{' then
          let name := rest2.takeWhile (fun x => !(x == '}'))
          let rem := rest2.dropWhile (fun x => !(x == '}'))
          if rem.isEmpty || name.isEmpty then '$' :: expandFuel capNum capName fuel rest
          else resolveCap capNum capName name ++ expandFuel capNum capName fuel rem.tail
        else
          let name := rest.takeWhile isWordChar
          if name.isEmpty then '$' :: expandFuel capNum capName fuel rest
          else resolveCap capNum capName name ++
            expandFuel capNum capName fuel (rest.drop name.length)
    else c :: expandFuel capNum capName fuel rest

/-- Expansion of a whole replacement string. -/
def expandReplacement (capNum : Nat → Str) (capName : Str → Str) (repl : Str) : Str :=
  expandFuel capNum capName repl.length repl

/-- Model of `Regex::replace` with a `&str` replacement (src/main.rs:474) on a
text whose first match of the pattern spans `[a, b)` with capture groups given
by `capNum`/`capName`: the text before the span, then the `$`-expanded
replacement, then the text from `b` on. -/
def regexReplaceFirst (text : Str) (a b : Nat) (capNum : Nat → Str)
    (capName : Str → Str) (repl : Str) : Str :=
  text.take a ++ expandReplacement capNum capName repl ++ text.drop b

/-- The data of the first regex match that `re.find(&current_bio)` returns
(src/main.rs:472): its span and its capture groups. -/
structure MatchInfo where
  start : Nat
  stop : Nat
  capNum : Nat → Str
  capName : Str → Str

/-- The bio text built at src/main.rs:473-474: the rendered output plus a
trailing newline, substituted for the first match of the pattern. -/
def patchedBio (currentBio : Str) (m : MatchInfo) (output : Str) : Str :=
  regexReplaceFirst currentBio m.start m.stop m.capNum m.capName (output ++ ['\n'])

/-- Outcome of the Discord bio update step (src/main.rs:459-498). -/
inductive DiscordOutcome where
  | dryRunPreview (newBio : Str)
  | upToDate
  | write (newBio : Str)
  | skipped
  | noMatch
deriving DecidableEq

/-- Model of the Discord update step of `main` (src/main.rs:459-498), given
the fetched bio, the result of the first-match search of the compiled pattern
(`None` when the pattern does not match), and the rendered output line.  Only
the `write` outcome issues a write request (`update_bio`). -/
def discordStep (updateDiscord dryRun : Bool) (currentBio : Str)
    (found : Option MatchInfo) (output : Str) : DiscordOutcome :=
  match found with
  | some m =>
    let newBio := patchedBio currentBio m output
    if dryRun then DiscordOutcome.dryRunPreview newBio
    else if updateDiscord then
      (if newBio = currentBio then DiscordOutcome.upToDate else DiscordOutcome.write newBio)
    else DiscordOutcome.skipped
  | none => DiscordOutcome.noMatch

/-! Helper lemmas about the placeholder scanner. -/

/-- Inversion of a successful anchored placeholder match: the input is exactly
the token followed by the remainder, and the captured name is a non-empty run
of word characters. -/
theorem matchPlaceholder_sound {s name rest : Str}
    (h : matchPlaceholder s = some (name, rest)) :
    s = '{' :: '{' :: (name ++ '}' :: '}' :: rest) ∧ name ≠ [] ∧
      name.all isWordChar = true := by
  match s with
  | [] => simp [matchPlaceholder] at h
  | [c] => simp [matchPlaceholder] at h
  | c₁ :: c₂ :: r =>
    simp only [matchPlaceholder] at h
    by_cases hbr : c₁ = '{' ∧ c₂ = '{'
    · rw [if_pos hbr] at h
      cases hdw : r.dropWhile isWordChar with
      | nil => rw [hdw] at h; simp at h
      | cons d₁ t =>
        cases t with
        | nil => rw [hdw] at h; simp at h
        | cons d₂ rest2 =>
          rw [hdw] at h
          simp only at h
          by_cases hcond : d₁ = '}' ∧ d₂ = '}' ∧ r.takeWhile isWordChar ≠ []
          · rw [if_pos hcond] at h
            simp only [Option.some.injEq, Prod.mk.injEq] at h
            obtain ⟨hname, hrest⟩ := h
            obtain ⟨hb1, hb2⟩ := hbr
            obtain ⟨hd1, hd2, hne⟩ := hcond
            subst hb1 hb2 hd1 hd2 hrest
            refine ⟨?_, hname ▸ hne, ?_⟩
            · have hsplit := List.takeWhile_append_dropWhile (p := isWordChar) (l := r)
              rw [hdw, hname] at hsplit
              rw [← hsplit]
            · rw [← hname]
              simp only [List.all_eq_true]
              exact fun c hc => List.mem_takeWhile_imp hc
          · rw [if_neg hcond] at h
            simp at h
    · rw [if_neg hbr] at h
      simp at h

/-- A run of characters satisfying `p` followed by a character refuting `p`
is exactly what `takeWhile`/`dropWhile` split off. -/
theorem takeWhile_append_stop {p : Char → Bool} :
    ∀ (l : Str) (d : Char) (t : Str), l.all p = true → p d = false →
      (l ++ d :: t).takeWhile p = l ∧ (l ++ d :: t).dropWhile p = d :: t := by
  intro l
  induction l with
  | nil =>
    intro d t _ hd
    simp [List.takeWhile_cons, List.dropWhile_cons, hd]
  | cons c cs ih =>
    intro d t hall hd
    simp only [List.all_cons, Bool.and_eq_true] at hall
    have hih := ih d t hall.2 hd
    simp [List.takeWhile_cons, List.dropWhile_cons, hall.1, hih.1, hih.2]

/-- The anchored placeholder match succeeds on a literal token. -/
theorem matchPlaceholder_token (name rest : Str) (hne : name ≠ [])
    (hall : name.all isWordChar = true) :
    matchPlaceholder ('{' :: '{' :: (name ++ '}' :: '}' :: rest)) =
      some (name, rest) := by
  have h1 := takeWhile_append_stop name '}' ('}' :: rest) hall (by decide)
  simp [matchPlaceholder, h1.1, h1.2, hne]

/-- The substitution scan does not depend on the fuel, as long as the fuel
bounds the input length. -/
theorem substFuel_fuel (vars : VarsMap) :
    ∀ f₁ f₂ s, s.length ≤ f₁ → s.length ≤ f₂ →
      substFuel vars f₁ s = substFuel vars f₂ s := by
  intro f₁
  induction f₁ with
  | zero =>
    intro f₂ s hs _
    have : s = [] := List.eq_nil_of_length_eq_zero (Nat.le_zero.mp hs)
    subst this
    cases f₂ <;> simp [substFuel]
  | succ f ih =>
    intro f₂ s hs₁ hs₂
    cases s with
    | nil => cases f₂ <;> simp [substFuel]
    | cons c cs =>
      cases f₂ with
      | zero => simp at hs₂
      | succ g =>
        simp only [substFuel]
        cases hm : matchPlaceholder (c :: cs) with
        | none =>
          have hl₁ : cs.length ≤ f := by simp at hs₁; omega
          have hl₂ : cs.length ≤ g := by simp at hs₂; omega
          rw [ih g cs hl₁ hl₂]
        | some pr =>
          obtain ⟨name, rest⟩ := pr
          obtain ⟨hshape, hne, _⟩ := matchPlaceholder_sound hm
          have hpos : 1 ≤ name.length := List.length_pos.mpr hne
          have hlen : (c :: cs).length = name.length + rest.length + 4 := by
            rw [hshape]; simp; omega
          simp only [List.length_cons] at hs₁ hs₂ hlen
          dsimp only
          rw [ih g rest (by omega) (by omega)]

/-- On text with no placeholder sequence the scan is the identity, whatever
the fuel. -/
theorem substFuel_id_of_no_placeholder (vars : VarsMap) :
    ∀ fuel s, hasPlaceholder s = false → substFuel vars fuel s = s := by
  intro fuel
  induction fuel with
  | zero => intro s _; rfl
  | succ f ih =>
    intro s h
    cases s with
    | nil => rfl
    | cons c cs =>
      simp only [hasPlaceholder, Bool.or_eq_false_iff] at h
      obtain ⟨h1, h2⟩ := h
      cases hm : matchPlaceholder (c :: cs) with
      | none => simp only [substFuel, hm]; rw [ih cs h2]
      | some pr => rw [hm] at h1; simp at h1

/-- Substituting a text that begins with a placeholder token replaces or keeps
the token according to the variable lookup and then continues after it. -/
theorem substitute_token_step (vars : VarsMap) (name rest : Str) (hne : name ≠ [])
    (hall : name.all isWordChar = true) :
    substitute_vars ('{' :: '{' :: (name ++ '}' :: '}' :: rest)) vars =
      ((hmLookup vars name).getD ('{' :: '{' :: (name ++ '}' :: '}' :: []))) ++
        substitute_vars rest vars := by
  unfold substitute_vars
  have hlen : ('{' :: '{' :: (name ++ '}' :: '}' :: rest)).length
      = (name.length + rest.length + 3) + 1 := by simp; omega
  rw [hlen]
  simp only [substFuel, matchPlaceholder_token name rest hne hall]
  congr 1
  exact substFuel_fuel vars (name.length + rest.length + 3) rest.length rest
    (by omega) (le_refl _)

/-- C8: for every variable map `vars` and every text `t` containing no
`\x7b\x7b...\x7d\x7d` placeholder sequence, `substitute_vars t vars = t`:
substitution is the identity on placeholder-free text. -/
theorem substitute_id_no_placeholder (t : Str) (vars : VarsMap)
    (h : hasPlaceholder t = false) : substitute_vars t vars = t :=
  substFuel_id_of_no_placeholder vars t.length t h

theorem substitute_id_no_placeholder_witness :
    hasPlaceholder "hello world".toList = false ∧
    substitute_vars "hello world".toList [(['A'], ['v'])] = "hello world".toList :=
  ⟨by decide, substitute_id_no_placeholder _ _ (by decide)⟩

/-- When every placeholder name the scan finds in a text is unbound, the scan
reproduces the text unchanged, token braces included. -/
theorem substFuel_id_of_names_absent (vars : VarsMap) :
    ∀ fuel s, (∀ n ∈ scanNamesFuel fuel s, hmLookup vars n = none) →
      substFuel vars fuel s = s := by
  intro fuel
  induction fuel with
  | zero => intro s _; rfl
  | succ f ih =>
    intro s h
    cases s with
    | nil => rfl
    | cons c cs =>
      cases hm : matchPlaceholder (c :: cs) with
      | none =>
        simp only [substFuel, hm]
        rw [ih cs (fun n hn => h n (by simp only [scanNamesFuel, hm]; exact hn))]
      | some pr =>
        obtain ⟨name, rest⟩ := pr
        obtain ⟨hshape, _, _⟩ := matchPlaceholder_sound hm
        have hnone : hmLookup vars name = none :=
          h name (by simp [scanNamesFuel, hm])
        simp only [substFuel, hm]
        rw [hnone, ih rest (fun n hn => h n (by simp [scanNamesFuel, hm, hn]))]
        rw [hshape]
        simp

/-- C7: a placeholder token whose identifier is not a key of the map is kept
in the output literally, both brace pairs included — at the head of the text
(first conjunct) and at any position, since a text all of whose scanned
placeholder names are unbound passes through unchanged (third conjunct) —
and substitution is single-pass: a substituted value is spliced verbatim and
scanning resumes after the token, so the value is never re-expanded (second
conjunct). -/
theorem substitute_missing_and_single_pass (vars : VarsMap) (name rest : Str)
    (hne : name ≠ []) (hall : name.all isWordChar = true) :
    (hmLookup vars name = none →
      substitute_vars ('{' :: '{' :: (name ++ '}' :: '}' :: rest)) vars =
        '{' :: '{' :: (name ++ '}' :: '}' :: substitute_vars rest vars)) ∧
    (∀ v, hmLookup vars name = some v →
      substitute_vars ('{' :: '{' :: (name ++ '}' :: '}' :: rest)) vars =
        v ++ substitute_vars rest vars) ∧
    (∀ s, (∀ n ∈ scanNames s, hmLookup vars n = none) →
      substitute_vars s vars = s) := by
  refine ⟨?_, ?_, ?_⟩
  · intro h
    rw [substitute_token_step vars name rest hne hall, h]
    simp
  · intro v h
    rw [substitute_token_step vars name rest hne hall, h]
    simp
  · intro s h
    exact substFuel_id_of_names_absent vars s.length s h

theorem substitute_missing_and_single_pass_witness :
    (['A'] : Str) ≠ [] ∧ (['A'] : Str).all isWordChar = true ∧
    hmLookup [(['B'], ['!'])] ['A'] = none ∧
    substitute_vars ('{' :: '{' :: (['A'] ++ '}' :: '}' :: ['x'])) [(['B'], ['!'])] =
      '{' :: '{' :: (['A'] ++ '}' :: '}' :: substitute_vars ['x'] [(['B'], ['!'])]) :=
  ⟨by decide, by decide, by decide,
    (substitute_missing_and_single_pass [(['B'], ['!'])] ['A'] ['x']
      (by decide) (by decide)).1 (by decide)⟩

/-! The request-spec transform (claim C2). -/

/-- C2 (amended): substitution is applied to the URL, to each header name and
each header value, and to the body when present; the method token alone is
left unchanged, and a header name containing no placeholder sequence is
unchanged.  (The claim's "never to a header name" fails: `apply_substitution`
maps `substitute_vars` over header names as well.) -/
theorem apply_substitution_method_and_names (spec : HttpSpec) (vars : VarsMap)
    (name value : Str) (hmem : (name, value) ∈ spec.headers)
    (hfree : hasPlaceholder name = false) :
    (apply_substitution spec vars).method = spec.method ∧
    (apply_substitution spec vars).url = substitute_vars spec.url vars ∧
    name ∈ (apply_substitution spec vars).headers.map Prod.fst := by
  refine ⟨rfl, rfl, ?_⟩
  simp only [apply_substitution, List.map_map]
  refine List.mem_map.mpr ⟨(name, value), hmem, ?_⟩
  simp only [Function.comp]
  exact substFuel_id_of_no_placeholder vars name.length name hfree

/-- C2 counterexample: a header name that is itself a bound placeholder token
is rewritten by `apply_substitution`, so header names are not left
character-for-character unchanged. -/
theorem apply_substitution_header_name_cex :
    ((apply_substitution ⟨"GET".toList, ['u'], [(['{', '{', 'X', '}', '}'], ['1'])], none⟩
        [(['X'], ['A'])]).headers.map Prod.fst) ≠
      [(['{', '{', 'X', '}', '}'] : Str)] := by decide

theorem apply_substitution_method_and_names_witness :
    (apply_substitution ⟨"GET".toList, ['u'], [(['H'], ['1'])], none⟩ []).method =
      "GET".toList ∧
    (apply_substitution ⟨"GET".toList, ['u'], [(['H'], ['1'])], none⟩ []).url =
      substitute_vars ['u'] [] ∧
    ['H'] ∈ ((apply_substitution ⟨"GET".toList, ['u'], [(['H'], ['1'])], none⟩ []).headers.map
      Prod.fst) :=
  apply_substitution_method_and_names _ [] ['H'] ['1'] (by decide) (by decide)

/-! The variable resolver (claim C3). -/

/-- Lookup after an insert-overwrite: the inserted key maps to the new value,
all other keys are unaffected. -/
theorem hmLookup_hmInsert (m : VarsMap) (k v k' : Str) :
    hmLookup (hmInsert m k v) k' = if k' = k then some v else hmLookup m k' := by
  by_cases h : k' = k
  · subst h
    simp [hmLookup, hmInsert, List.find?_cons]
  · have hk : (k == k') = false := beq_eq_false_iff_ne.mpr (fun hh => h hh.symm)
    simp only [hmLookup, hmInsert, List.find?_cons, hk, if_neg h]
    congr 1
    induction m with
    | nil => rfl
    | cons kv t ih =>
      by_cases hkv : kv.1 = k
      · have h1 : (kv.1 == k') = false :=
          beq_eq_false_iff_ne.mpr (fun hh => h (by rw [← hh, hkv]))
        simp [List.filter_cons, hkv, List.find?_cons, h1, hk, ih]
      · have h1 : (kv.1 == k) = false := beq_eq_false_iff_ne.mpr hkv
        cases h2 : (kv.1 == k') with
        | true => simp [List.filter_cons, h1, List.find?_cons, h2]
        | false => simp [List.filter_cons, h1, List.find?_cons, h2, ih]

/-- Option.map distributes over Option.or. -/
theorem option_map_or {α β : Type} (a b : Option α) (f : α → β) :
    (a.or b).map f = (a.map f).or (b.map f) := by
  cases a <;> simp

/-- Folding the explicit base pairs through insert-overwrite: the last binding
of a key wins, earlier map contents are a fallback. -/
theorem foldl_hmInsert_lookup :
    ∀ (base : VarsMap) (m : VarsMap) (k : Str),
      hmLookup (base.foldl (fun m kv => hmInsert m kv.1 kv.2) m) k =
        ((base.reverse.find? (fun kv => kv.1 == k)).map (fun kv => kv.2)).or
          (hmLookup m k) := by
  intro base
  induction base with
  | nil => intro m k; simp
  | cons kv t ih =>
    intro m k
    simp only [List.foldl_cons, List.reverse_cons, List.find?_append]
    rw [ih, hmLookup_hmInsert, option_map_or, Option.or_assoc]
    congr 1
    by_cases h : k = kv.1
    · have h1 : (kv.1 == k) = true := beq_iff_eq.mpr h.symm
      simp [List.find?_cons, h1, h]
    · have h1 : (kv.1 == k) = false := beq_eq_false_iff_ne.mpr (fun hh => h hh.symm)
      simp [List.find?_cons, h1, h]

/-- Folding the environment pairs through `entry(..).or_insert(..)`: an
existing binding always wins; otherwise the first environment occurrence of
the key is taken. -/
theorem foldl_env_lookup :
    ∀ (env : VarsMap) (m : VarsMap) (k : Str),
      hmLookup (env.foldl
          (fun m kv => if (hmLookup m kv.1).isSome then m else hmInsert m kv.1 kv.2) m) k =
        (hmLookup m k).or ((env.find? (fun kv => kv.1 == k)).map (fun kv => kv.2)) := by
  intro env
  induction env with
  | nil => intro m k; simp
  | cons kv t ih =>
    intro m k
    by_cases hs : (hmLookup m kv.1).isSome = true
    · by_cases h : kv.1 = k
      · obtain ⟨v, hv⟩ := Option.isSome_iff_exists.mp (h ▸ hs)
        simp [List.foldl_cons, hs, ih, List.find?_cons, beq_iff_eq.mpr h, hv]
      · simp [List.foldl_cons, hs, ih, List.find?_cons, beq_eq_false_iff_ne.mpr h]
    · have hnone : hmLookup m kv.1 = none := by
        cases hmm : hmLookup m kv.1 with
        | none => rfl
        | some v => rw [hmm] at hs; simp at hs
      by_cases h : kv.1 = k
      · subst h
        simp [List.foldl_cons, hs, ih, hmLookup_hmInsert, hnone, List.find?_cons,
          beq_iff_eq.mpr rfl]
      · have h2 : ¬ k = kv.1 := fun hh => h hh.symm
        simp [List.foldl_cons, hs, ih, hmLookup_hmInsert, List.find?_cons,
          beq_eq_false_iff_ne.mpr h, h2]

/-- C3 (amended): for each key, the variable map binds the LAST-supplied value
among the explicit pairs when the same key appears twice (`HashMap::insert`
overwrites), and an environment variable is consulted only when the key is
absent from the explicit pairs, so an explicit value is never shadowed by an
environment variable of the same name. -/
theorem build_vars_map_lookup (base env : VarsMap) (k : Str) :
    hmLookup (build_vars_map base env) k =
      ((base.reverse.find? (fun kv => kv.1 == k)).map (fun kv => kv.2)).or
        ((env.find? (fun kv => kv.1 == k)).map (fun kv => kv.2)) := by
  unfold build_vars_map
  rw [foldl_env_lookup, foldl_hmInsert_lookup]
  simp [hmLookup]

/-- C3 counterexample: with the same key supplied twice among the explicit
pairs, the second value wins, not the first. -/
theorem build_vars_map_first_wins_cex :
    hmLookup (build_vars_map [(['K'], ['1']), (['K'], ['2'])] []) ['K'] = some ['2'] ∧
    hmLookup (build_vars_map [(['K'], ['1']), (['K'], ['2'])] []) ['K'] ≠ some ['1'] := by
  decide

/-! Header-line parsing (claim C5). -/

/-- The index search of `raw.find(':')` on a line whose first colon follows a
colon-free prefix, generalized over the search accumulator. -/
theorem findIdx_colon_append (pre post : Str) :
    ∀ i : Nat, ':' ∉ pre →
      List.findIdx? (fun c => c == ':') (pre ++ ':' :: post) i = some (i + pre.length) := by
  induction pre with
  | nil => intro i _; simp [List.findIdx?_cons]
  | cons c cs ih =>
    intro i hpre
    have hcne : ¬ c = ':' := fun h => hpre (by rw [h]; exact List.mem_cons_self ':' cs)
    have hrec := ih (i + 1) (fun h => hpre (List.mem_cons_of_mem c h))
    simp only [List.cons_append, List.findIdx?_cons, beq_eq_false_iff_ne.mpr hcne,
      Bool.false_eq_true, if_false, hrec, List.length_cons]
    congr 1
    omega

/-- The index search fails on a colon-free line, whatever the accumulator. -/
theorem findIdx_colon_none (raw : Str) :
    ∀ i : Nat, ':' ∉ raw → List.findIdx? (fun c => c == ':') raw i = none := by
  induction raw with
  | nil => intro i _; rfl
  | cons c cs ih =>
    intro i hraw
    have hcne : ¬ c = ':' := fun h => hraw (by rw [h]; exact List.mem_cons_self ':' cs)
    simp only [List.findIdx?_cons, beq_eq_false_iff_ne.mpr hcne, Bool.false_eq_true, if_false]
    exact ih (i + 1) (fun h => hraw (List.mem_cons_of_mem c h))

/-- C5 (amended): a header line is split at the first colon into the trimmed
text before it and, for the value, the text after the colon with every
immediately following colon ALSO removed (`trim_start_matches(':')` strips
the whole leading run of colons) and then trimmed; a line without a colon is
the error `Invalid header line:` followed by the raw line. -/
theorem parse_header_line_spec (pre post raw : Str) (hpre : ':' ∉ pre)
    (hraw : ':' ∉ raw) :
    parseHeaderLine (pre ++ ':' :: post) =
      Except.ok (rustTrim pre, rustTrim (post.dropWhile (fun c => c == ':'))) ∧
    parseHeaderLine raw = Except.error ("Invalid header line: ".toList ++ raw) := by
  constructor
  · unfold parseHeaderLine
    rw [show (pre ++ ':' :: post).findIdx? (fun c => c == ':') = some pre.length from by
      simpa using findIdx_colon_append pre post 0 hpre]
    simp only [List.take_left, List.drop_left, List.dropWhile_cons]
    simp
  · unfold parseHeaderLine
    rw [findIdx_colon_none raw 0 hraw]

/-- C5 counterexample: on the line `A::x` the code yields the value `x`, not
the claim's `:x` (the text after the first colon, trimmed, which would keep
the second colon). -/
theorem parse_header_line_cex :
    parseHeaderLine ['A', ':', ':', 'x'] = Except.ok (['A'], ['x']) ∧
    parseHeaderLine ['A', ':', ':', 'x'] ≠ Except.ok (['A'], [':', 'x']) := by
  decide

theorem parse_header_line_spec_witness :
    parseHeaderLine (['A'] ++ ':' :: [' ', 'v']) =
      Except.ok (rustTrim ['A'], rustTrim ([' ', 'v'].dropWhile (fun c => c == ':'))) ∧
    parseHeaderLine ['B'] = Except.error ("Invalid header line: ".toList ++ ['B']) :=
  parse_header_line_spec ['A'] [' ', 'v'] ['B'] (by decide) (by decide)

/-! Pattern normalization (claim C6). -/

/-- C6 (amended): the user-supplied pattern is first TRIMMED of surrounding
whitespace; if the trimmed string is wrapped in a leading and a trailing `/`
(so has length at least two), exactly those two delimiters are stripped,
otherwise the trimmed string — not the supplied string — is used. -/
theorem normalize_pattern_spec (p inner q : Str)
    (hw : rustTrim p = '/' :: inner ++ ['/'])
    (hq : ∀ inner2, rustTrim q ≠ '/' :: inner2 ++ ['/']) :
    normalize_pattern p = inner ∧ normalize_pattern q = rustTrim q := by
  constructor
  · simp only [normalize_pattern, hw]
    rw [if_pos]
    · simp [List.dropLast_concat]
    · refine ⟨by simp, rfl, ?_⟩
      rw [show ('/' :: inner ++ ['/'] : Str) = ('/' :: inner) ++ ['/'] by simp]
      exact List.getLast?_concat _
  · simp only [normalize_pattern]
    rw [if_neg]
    intro hcond
    obtain ⟨hlen, hhead, hlast⟩ := hcond
    cases hs : rustTrim q with
    | nil => rw [hs] at hlen; simp at hlen
    | cons a t =>
      rw [hs] at hhead hlast hlen
      simp only [List.head?_cons, Option.some.injEq] at hhead
      subst hhead
      have htne : t ≠ [] := by
        intro hh
        rw [hh] at hlen
        simp at hlen
      have hdec := List.dropLast_append_getLast htne
      have hlast2 : t.getLast htne = '/' := by
        rw [show ('/' :: t : Str) = ('/' :: t.dropLast) ++ [t.getLast htne] from by
          rw [List.cons_append, hdec]] at hlast
        rw [List.getLast?_concat] at hlast
        exact (Option.some.injEq _ _).mp hlast
      refine hq t.dropLast ?_
      rw [hs, ← hdec, hlast2]
      simp

/-- C6 counterexample: a pattern with leading whitespace and no slash
delimiters is not used as-is — `normalize_pattern` trims it first. -/
theorem normalize_pattern_cex :
    ([' ', 'a'] : Str).head? ≠ some '/' ∧ normalize_pattern [' ', 'a'] ≠ [' ', 'a'] := by
  decide

theorem normalize_pattern_spec_witness :
    normalize_pattern ['/', 'a', 'b', '/'] = ['a', 'b'] ∧
    normalize_pattern ['a', 'b'] = rustTrim ['a', 'b'] :=
  normalize_pattern_spec ['/', 'a', 'b', '/'] ['a', 'b'] ['a', 'b'] (by decide)
    (by
      intro i2 h
      rw [show rustTrim ['a', 'b'] = ['a', 'b'] from by decide] at h
      injection h with h1 h2
      exact absurd h1 (by decide))

/-! The HTTP executor's error classification (claim C4). -/

/-- C4 (amended): a non-success response yields the error
`HTTP request failed with status <status>` — the error carries the numeric
status code (the status display starts with its decimal digits) but NOT the
response body; the body (or the read-failure placeholder) appears only in the
debug log emitted when `debug` is set. -/
theorem http_error_carries_status (r : ResponseModel)
    (h : statusIsSuccess r.status = false) :
    (send_with_debug r false).1 =
      Except.error ("HTTP request failed with status ".toList ++ statusDisplay r) ∧
    natToStr r.status <:+:
      ("HTTP request failed with status ".toList ++ statusDisplay r) ∧
    ("HTTP error status: ".toList ++ statusDisplay r ++
        '\n' :: "Response body: ".toList ++ readBodyOrPlaceholder r.bodyRead) ∈
      (send_with_debug r true).2 ∧
    readBodyOrPlaceholder r.bodyRead <:+:
      ("HTTP error status: ".toList ++ statusDisplay r ++
        '\n' :: "Response body: ".toList ++ readBodyOrPlaceholder r.bodyRead) := by
  refine ⟨?_, ?_, ?_, ?_⟩
  · simp [send_with_debug, h]
  · exact ⟨"HTTP request failed with status ".toList, ' ' :: r.reason, by
      simp [statusDisplay]⟩
  · simp [send_with_debug, h]
  · exact ⟨"HTTP error status: ".toList ++ statusDisplay r ++
      '\n' :: "Response body: ".toList, [], by simp⟩

/-- C4 counterexample: a 404 response with a JSON body yields an error whose
text does not contain the response body at all — the body is not carried in
the returned error, contrary to the claimed `HttpStatus\x7b404, body\x7d`. -/
theorem http_error_body_cex :
    (send_with_debug
        ⟨404, "Not Found".toList, Except.ok "\x7b\"error\":\"not found\"\x7d".toList⟩
        false).1 =
      Except.error "HTTP request failed with status 404 Not Found".toList ∧
    ¬ ("\x7b\"error\":\"not found\"\x7d".toList <:+:
        "HTTP request failed with status 404 Not Found".toList) := by
  decide

theorem http_error_carries_status_witness :
    statusIsSuccess 404 = false ∧
    (send_with_debug ⟨404, "Not Found".toList, Except.ok ['b']⟩ false).1 =
      Except.error ("HTTP request failed with status ".toList ++
        statusDisplay ⟨404, "Not Found".toList, Except.ok ['b']⟩) :=
  ⟨by decide,
    (http_error_carries_status ⟨404, "Not Found".toList, Except.ok ['b']⟩ (by decide)).1⟩

/-! The bio patcher (claims C1, C9, C10). -/

/-- The `$` expansion is the identity on replacement text containing no `$`
character, whatever the fuel. -/
theorem expandFuel_no_dollar (capNum : Nat → Str) (capName : Str → Str) :
    ∀ fuel s, '$' ∉ s → expandFuel capNum capName fuel s = s := by
  intro fuel
  induction fuel with
  | zero => intro s _; rfl
  | succ f ih =>
    intro s h
    cases s with
    | nil => rfl
    | cons c cs =>
      have hc : ¬ c = '$' := fun hh => h (by rw [hh]; exact List.mem_cons_self '$' cs)
      simp only [expandFuel, if_neg hc]
      rw [ih cs (fun hm => h (List.mem_cons_of_mem c hm))]

/-- C1 (amended): when the replacement block contains no `$` character, the
patch produces exactly `T[0:a] ++ block ++ "\n" ++ T[b:]` for a first match
spanning `[a, b)` — the block plus one newline replaces only the matched
span and all text before and after it is unchanged.  (For blocks containing
`$`, the regex engine performs capture-group expansion on the block, so the
claim's "every possible content of the block" fails.) -/
theorem bio_patch_replaces_span (bio block : Str) (a b : Nat)
    (capNum : Nat → Str) (capName : Str → Str) (h : '$' ∉ block) :
    regexReplaceFirst bio a b capNum capName (block ++ ['\n']) =
      bio.take a ++ block ++ '\n' :: bio.drop b := by
  have hnd : '$' ∉ block ++ ['\n'] := by
    intro hm
    rcases List.mem_append.mp hm with h1 | h1
    · exact h h1
    · simp at h1
  unfold regexReplaceFirst expandReplacement
  rw [expandFuel_no_dollar capNum capName (block ++ ['\n']).length _ hnd]
  simp

/-- C1 counterexample: with bio `xbx`, a pattern whose first match is the
`b` at span `[1,2)` (group 0 = `b`), and replacement block `$0`, the code
produces `xb\nx` — the `$0` is expanded to the matched text — instead of the
claimed `x$0\nx`. -/
theorem bio_patch_dollar_cex :
    regexReplaceFirst ['x', 'b', 'x'] 1 2 (fun n => if n = 0 then ['b'] else [])
        (fun _ => []) (['$', '0'] ++ ['\n']) = ['x', 'b', '\n', 'x'] ∧
    regexReplaceFirst ['x', 'b', 'x'] 1 2 (fun n => if n = 0 then ['b'] else [])
        (fun _ => []) (['$', '0'] ++ ['\n']) ≠
      (['x', 'b', 'x'] : Str).take 1 ++ ['$', '0'] ++ '\n' :: (['x', 'b', 'x'] : Str).drop 2 := by
  decide

theorem bio_patch_replaces_span_witness :
    ('$' ∉ (['o', 'k'] : Str)) ∧
    regexReplaceFirst ['x', 'b', 'x'] 1 2 (fun _ => []) (fun _ => []) (['o', 'k'] ++ ['\n']) =
      (['x', 'b', 'x'] : Str).take 1 ++ ['o', 'k'] ++ '\n' :: (['x', 'b', 'x'] : Str).drop 2 :=
  ⟨by decide, bio_patch_replaces_span ['x', 'b', 'x'] ['o', 'k'] 1 2 _ _ (by decide)⟩

/-- C9: when the compiled pattern has no match in the fetched bio, the update
step reports the no-match outcome — which carries no modified text — and no
write request is issued, whatever the flags and the rendered output. -/
theorem no_match_outcome (updateDiscord dryRun : Bool) (currentBio output : Str) :
    discordStep updateDiscord dryRun currentBio none output = DiscordOutcome.noMatch ∧
    ∀ nb, discordStep updateDiscord dryRun currentBio none output ≠
      DiscordOutcome.write nb := by
  refine ⟨rfl, ?_⟩
  intro nb
  simp [discordStep]

/-- C10: in a real update run (not a dry run) with a matching pattern, when
the patched bio equals the current bio the step reports "up to date" and no
write request is issued. -/
theorem no_op_update_skipped (currentBio output : Str) (m : MatchInfo)
    (h : patchedBio currentBio m output = currentBio) :
    discordStep true false currentBio (some m) output = DiscordOutcome.upToDate ∧
    ∀ nb, discordStep true false currentBio (some m) output ≠
      DiscordOutcome.write nb := by
  constructor
  · simp [discordStep, h]
  · intro nb
    simp [discordStep, h]

theorem no_op_update_skipped_witness :
    patchedBio ['A', '\n'] ⟨0, 2, fun _ => [], fun _ => []⟩ ['A'] = ['A', '\n'] ∧
    discordStep true false ['A', '\n'] (some ⟨0, 2, fun _ => [], fun _ => []⟩) ['A'] =
      DiscordOutcome.upToDate :=
  ⟨by decide, (no_op_update_skipped ['A', '\n'] ['A'] ⟨0, 2, fun _ => [], fun _ => []⟩
    (by decide)).1⟩

end TopSongs
